import Mathlib

/-
Shallow embedding of the nextmn/rfc9433 Go package (RFC 9433, SRv6 mobile user
plane address codecs).

Bytes are modelled as Nat with explicit masking: shifting left is followed by
a reduction modulo 256 exactly where Go uint8 arithmetic truncates.  Go byte
slices are List Nat; the fixed 16-byte IPv6 address array is a List Nat whose
length is stated as a hypothesis where it matters.  Fallible Go functions
returning (T, error) become Except Err T.  A netip.Prefix value is modelled by
its 16-byte address and its bit count; the Go Bits() method yields -1 for the
invalid (zero) Prefix, and any real netip.Prefix for an IPv6 address carries
bits in -1..128, so bits is an Int.  The mutating Go marshal helpers take the
caller buffer and return the updated buffer in the ok case.
-/

namespace RFC9433

/-- Error values of package encoding/errors (errors.go). -/
inductive Err where
  | tooShortToMarshal
  | tooShortToParse
  | prefixLength
  | outOfRange
deriving DecidableEq

/-- FromIPv6 of internal/utils: extract a run of length bytes starting at bit
startBit of a 16-byte address.  Mirrors the Go source exactly: the second loop
ranges over ipv6[startByte+1 : startByte+length], which has length-1 elements,
so the last output byte receives only the left-shifted part. -/
def fromIPv6 (ipv6 : List Nat) (startBit length : Nat) : Except Err (List Nat) :=
  if ipv6.length < length then .error .tooShortToParse
  else if 8 * ipv6.length < startBit + length * 8 then .error .outOfRange
  else
    let startByte := startBit / 8
    let offset := startBit % 8
    if offset = 0 then
      .ok ((ipv6.drop startByte).take length)
    else
      let left := ((ipv6.drop startByte).take length).map fun b => (b <<< offset) % 256
      let right := ((ipv6.drop (startByte + 1)).take (length - 1)).map fun b => b >>> (8 - offset)
      .ok (List.zipWith (fun l r => l ||| r) left right ++ left.drop right.length)

/-- Go copy(s[k:], p): write the bytes of p at consecutive indices from k,
silently stopping at the end of s (List.set is the identity out of range). -/
def copyAt : List Nat → Nat → List Nat → List Nat
  | s, _, [] => s
  | s, k, b :: rest => copyAt (s.set k b) (k + 1) rest

/-- Go s[j] |= v. -/
def orAt (s : List Nat) (j v : Nat) : List Nat := s.set j (s.getD j 0 ||| v)

/-- First loop of AppendToSlice: for i, b := range p, s[j+i] |= b >> offset. -/
def orShiftRight : List Nat → Nat → Nat → List Nat → List Nat
  | s, _, _, [] => s
  | s, j, offset, b :: rest => orShiftRight (orAt s j (b >>> offset)) (j + 1) offset rest

/-- Second loop of AppendToSlice: for i, b := range p,
s[j+i] |= b << (8-offset), truncated to a byte. -/
def orShiftLeft : List Nat → Nat → Nat → List Nat → List Nat
  | s, _, _, [] => s
  | s, j, offset, b :: rest => orShiftLeft (orAt s j ((b <<< (8 - offset)) % 256)) (j + 1) offset rest

/-- AppendToSlice of internal/utils: OR-merge the payload into the buffer
starting at bit endBit, without clearing any bits first. -/
def appendToSlice (slice : List Nat) (endBit : Nat) (appendThis : List Nat) : Except Err (List Nat) :=
  let endByte := endBit / 8
  let offset := endBit % 8
  let isOffset := if 0 < offset then 1 else 0
  if slice.length < isOffset + endByte + appendThis.length then .error .tooShortToMarshal
  else if offset = 0 then .ok (copyAt slice endByte appendThis)
  else .ok (orShiftLeft (orShiftRight slice endByte offset appendThis) (endByte + isOffset) offset appendThis)

/-- Args.Mob.Session of encoding/args-mob-session.go.  Go field types are
uint8, uint8, uint8, uint32. -/
structure ArgsMobSession where
  qfi : Nat
  r : Nat
  u : Nat
  pduSessionID : Nat
deriving DecidableEq

/-- NewArgsMobSession: booleans are stored as 0/1. -/
def newArgsMobSession (qfi : Nat) (r u : Bool) (pduSessionID : Nat) : ArgsMobSession :=
  ⟨qfi, if r then 1 else 0, if u then 1 else 0, pduSessionID⟩

/-- ArgsMobSession.MarshalTo: byte 0 is OR-filled with QFI (bits 7-2),
R (bit 1), U (bit 0); bytes 1-4 receive the session id big-endian.
Masks are qfiMask = 63, rMask = uMask = 1 as in the Go constants. -/
def argsMarshalTo (a : ArgsMobSession) (b : List Nat) : Except Err (List Nat) :=
  if b.length < 5 then .error .tooShortToMarshal
  else
    let b1 := orAt b 0 ((Nat.land 63 a.qfi <<< 2) % 256)
    let b2 := orAt b1 0 ((Nat.land 1 a.r <<< 1) % 256)
    let b3 := orAt b2 0 ((Nat.land 1 a.u <<< 0) % 256)
    .ok (copyAt b3 1 [a.pduSessionID >>> 24 % 256, a.pduSessionID >>> 16 % 256,
      a.pduSessionID >>> 8 % 256, a.pduSessionID % 256])

/-- ArgsMobSession.Marshal: marshal into a fresh zeroed 5-byte buffer. -/
def argsMarshal (a : ArgsMobSession) : Except Err (List Nat) :=
  argsMarshalTo a (List.replicate 5 0)

/-- ParseArgsMobSession / UnmarshalBinary. -/
def parseArgsMobSession (b : List Nat) : Except Err ArgsMobSession :=
  if b.length < 5 then .error .tooShortToParse
  else .ok
    { qfi := Nat.land 63 (b.getD 0 0 >>> 2)
      r := Nat.land 1 (b.getD 0 0 >>> 1)
      u := Nat.land 1 (b.getD 0 0 >>> 0)
      pduSessionID := (b.getD 1 0 <<< 24) ||| (b.getD 2 0 <<< 16) ||| (b.getD 3 0 <<< 8) ||| b.getD 4 0 }

/-- A Go netip.Prefix restricted to IPv6: the 16 address bytes and the bit
count returned by Bits().  Bits() is -1 exactly for the invalid zero Prefix. -/
structure NetipPfx where
  addr : List Nat
  bits : Int
deriving DecidableEq

/-- Byte i of the netip mask for an n-bit IPv6 prefix (netip mask6). -/
def mask6Byte (n i : Nat) : Nat :=
  if 8 * (i + 1) ≤ n then 255
  else if n ≤ 8 * i then 0
  else Nat.xor 255 (255 >>> (n - 8 * i))

/-- Apply the n-bit mask to a 16-byte address (netip Addr.And with mask6 n). -/
def maskAddr16 (a : List Nat) (n : Nat) : List Nat :=
  (List.range 16).map fun i => Nat.land (a.getD i 0) (mask6Byte n i)

/-- netip.PrefixFrom(AddrFrom16(a), n).Masked(): for a valid bit count the
masked canonical prefix, otherwise the invalid zero Prefix (Bits() = -1,
whose address reads as 16 zero bytes). -/
def pfxFromMasked (a : List Nat) (n : Nat) : NetipPfx :=
  if n ≤ 128 then ⟨maskAddr16 a n, (n : Int)⟩ else ⟨List.replicate 16 0, -1⟩

/-- The 4 bytes of a Go [4]byte IPv4 payload, as produced by
netip.AddrFrom4(ipv4).AsSlice(). -/
def ipv4Slice (p : Nat × Nat × Nat × Nat) : List Nat := [p.1, p.2.1, p.2.2.1, p.2.2.2]

/-- MGTP4IPv6Dst of encoding (End.M.GTP4.E SID). -/
structure MGTP4IPv6Dst where
  pfx : NetipPfx
  ipv4 : Nat × Nat × Nat × Nat
  argsMobSession : ArgsMobSession
deriving DecidableEq

/-- ParseMGTP4IPv6Dst.  In the Go source the error of the second FromIPv6
call is shadowed by the following ParseArgsMobSession assignment without
being checked, so a failed 5-byte extraction flows on as a nil slice; this
embedding mirrors that by discarding the error and passing the empty list. -/
def parseMGTP4IPv6Dst (ipv6Addr : List Nat) (prefixLength : Nat) : Except Err MGTP4IPv6Dst :=
  let pfx := pfxFromMasked ipv6Addr prefixLength
  match fromIPv6 ipv6Addr prefixLength 4 with
  | .error e => .error e
  | .ok src =>
    let ipv4 := (src.getD 0 0, src.getD 1 0, src.getD 2 0, src.getD 3 0)
    let argsMobSessionSlice := match fromIPv6 ipv6Addr (prefixLength + 8 * 4) 5 with
      | .error _ => ([] : List Nat)
      | .ok s => s
    match parseArgsMobSession argsMobSessionSlice with
    | .error e => .error e
    | .ok argsMobSession => .ok ⟨pfx, ipv4, argsMobSession⟩

/-- MGTP4IPv6Dst.MarshalTo: copy the prefix address over the first 16 bytes,
then append the IPv4 payload at the prefix bit count and the marshalled
Args.Mob.Session 32 bits later. -/
def dstMarshalTo (m : MGTP4IPv6Dst) (b : List Nat) : Except Err (List Nat) :=
  if b.length < 16 then .error .tooShortToMarshal
  else
    let b1 := copyAt b 0 m.pfx.addr
    if m.pfx.bits = -1 then .error .prefixLength
    else
      let bits := m.pfx.bits.toNat
      match appendToSlice b1 bits (ipv4Slice m.ipv4) with
      | .error e => .error e
      | .ok b2 =>
        match argsMarshal m.argsMobSession with
        | .error e => .error e
        | .ok argsMobSessionB =>
          match appendToSlice b2 (bits + 8 * 4) argsMobSessionB with
          | .error e => .error e
          | .ok b3 => .ok b3

/-- MGTP4IPv6Dst.Marshal: marshal into a fresh zeroed 16-byte buffer. -/
def dstMarshal (m : MGTP4IPv6Dst) : Except Err (List Nat) :=
  dstMarshalTo m (List.replicate 16 0)

/-- MGTP4IPv6Src of encoding (NextMN source address layout). -/
structure MGTP4IPv6Src where
  pfx : NetipPfx
  ipv4 : Nat × Nat × Nat × Nat
  udp : Nat
deriving DecidableEq

/-- ParseMGTP4IPv6Src: basic source-address parse with an explicit prefix
length; the udp field is left at its zero value. -/
def parseMGTP4IPv6Src (addr : List Nat) (prefixLen : Nat) : Except Err MGTP4IPv6Src :=
  if prefixLen = 0 then .error .prefixLength
  else if 8 * 16 < prefixLen + 8 * 4 then .error .outOfRange
  else
    let pfx := pfxFromMasked addr prefixLen
    match fromIPv6 addr prefixLen 4 with
    | .error e => .error e
    | .ok src => .ok ⟨pfx, (src.getD 0 0, src.getD 1 0, src.getD 2 0, src.getD 3 0), 0⟩

/-- binary.BigEndian.Uint16 of two bytes. -/
def be16 (hi lo : Nat) : Nat := (hi <<< 8) ||| lo

/-- ParseMGTP4IPv6SrcNextMN: self-describing variant; the prefix length is
read from the low 7 bits of byte 15 (mask 127, shift 0). -/
def parseMGTP4IPv6SrcNextMN (addr : List Nat) : Except Err MGTP4IPv6Src :=
  let prefixLen := Nat.land 127 (addr.getD 15 0 >>> 0)
  match parseMGTP4IPv6Src addr prefixLen with
  | .error e => .error e
  | .ok r =>
    if 8 * 16 < prefixLen + 8 * 4 + 16 + 7 then .error .outOfRange
    else
      match fromIPv6 addr (prefixLen + 8 * 4) 2 with
      | .error e => .error e
      | .ok src => .ok { r with udp := be16 (src.getD 0 0) (src.getD 1 0) }

/-- MGTP4IPv6Src.MarshalTo: copy the prefix address over the first 16 bytes,
append the IPv4 payload at the prefix bit count, append the big-endian UDP
port 32 bits later, then write the bit count itself into byte 15. -/
def srcMarshalTo (m : MGTP4IPv6Src) (b : List Nat) : Except Err (List Nat) :=
  if b.length < 16 then .error .tooShortToMarshal
  else
    let b1 := copyAt b 0 m.pfx.addr
    let udpB := [m.udp >>> 8 % 256, m.udp % 256]
    if m.pfx.bits = -1 then .error .prefixLength
    else
      let bits := m.pfx.bits.toNat
      match appendToSlice b1 bits (ipv4Slice m.ipv4) with
      | .error e => .error e
      | .ok b2 =>
        match appendToSlice b2 (bits + 8 * 4) udpB with
        | .error e => .error e
        | .ok b3 => .ok (b3.set 15 (bits % 256))

/-- MGTP4IPv6Src.Marshal: marshal into a fresh zeroed 16-byte buffer. -/
def srcMarshal (m : MGTP4IPv6Src) : Except Err (List Nat) :=
  srcMarshalTo m (List.replicate 16 0)

/-- Modelled from the spec text, for comparison with fromIPv6 (refinement
check): the reference value of output byte i of the bit window starting at
startBit, namely the left-shifted source byte startByte+i OR-ed with the
right-shifted high bits of the next source byte, for every output byte. -/
def claimedWindowByte (ipv6 : List Nat) (startBit i : Nat) : Nat :=
  let startByte := startBit / 8
  let offset := startBit % 8
  ((ipv6.getD (startByte + i) 0 <<< offset) % 256) ||| (ipv6.getD (startByte + i + 1) 0 >>> (8 - offset))

/-- Address bytes of the prefix 3fff::/20 used in the package example. -/
def addr3fff : List Nat := [63, 255, 0, 0, 0, 0, 0, 0, 0, 0, 0, 0, 0, 0, 0, 0]

/-- The destination of the package example ExampleMGTP4IPv6Dst:
NewMGTP4IPv6Dst(3fff::/20, 203.0.113.1, NewArgsMobSession(0, false, false, 1)). -/
def dstExample : MGTP4IPv6Dst :=
  ⟨pfxFromMasked addr3fff 20, (203, 0, 113, 1), newArgsMobSession 0 false false 1⟩

/-- A source address value with the same prefix and IPv4, UDP port 12345. -/
def srcExample : MGTP4IPv6Src :=
  ⟨pfxFromMasked addr3fff 20, (203, 0, 113, 1), 12345⟩

/-- The 16 bytes produced by marshalling srcExample. -/
def srcOut16 : List Nat := [63, 255, 12, 176, 7, 16, 19, 3, 144, 0, 0, 0, 0, 0, 0, 20]

/-- A 16-byte buffer whose byte 1 is 255; bits 4..11 of it are 0x0F. -/
def bugBuf : List Nat := [0, 255, 0, 0, 0, 0, 0, 0, 0, 0, 0, 0, 0, 0, 0, 0]

/-- Source address whose trailing 7 bits decode to prefix length 80. -/
def c7AddrNoRoom : List Nat := [0, 0, 0, 0, 0, 0, 0, 0, 0, 0, 0, 0, 0, 0, 0, 80]

/-- Source address with prefix length 20 in byte 15 and 240 in byte 8, so the
16-bit window at bit 52 ends in the high nibble of byte 8. -/
def c7AddrPort : List Nat := [0, 0, 0, 0, 0, 0, 0, 0, 240, 0, 0, 0, 0, 0, 0, 20]

/-- A source value holding a full /128 prefix (valid in Go:
NewMGTP4IPv6Src(netip.MustParsePrefix("::/128"), ..., 7)). -/
def srcM128 : MGTP4IPv6Src := ⟨⟨List.replicate 16 0, 128⟩, (1, 2, 3, 4), 7⟩

/-- A destination value whose prefix bit count 57 makes 57+32+40 overflow 128. -/
def dstEx57 : MGTP4IPv6Dst := ⟨⟨List.replicate 16 0, 57⟩, (1, 2, 3, 4), newArgsMobSession 0 false false 1⟩

/-- Two buffers agree on their length and on every byte below index n. -/
def agreeBelow (n : Nat) (s t : List Nat) : Prop :=
  s.length = t.length ∧ ∀ i, i < n → s.getD i 0 = t.getD i 0

theorem getD_set (s : List Nat) :
    ∀ i j v, (s.set i v).getD j 0 = if i = j ∧ i < s.length then v else s.getD j 0 := by
  induction s with
  | nil => intro i j v; simp [List.set]
  | cons a t ih =>
    intro i j v
    cases i with
    | zero =>
      cases j with
      | zero => simp
      | succ jj => simp [List.getD_cons_succ]
    | succ ii =>
      cases j with
      | zero => simp
      | succ jj =>
        simp only [List.set, List.getD_cons_succ, ih ii jj v, List.length_cons]
        by_cases h : ii = jj ∧ ii < t.length
        · rw [if_pos h, if_pos ⟨by omega, by omega⟩]
        · rw [if_neg h, if_neg (by omega)]

theorem copyAt_length (p : List Nat) : ∀ s k, (copyAt s k p).length = s.length := by
  induction p with
  | nil => intro s k; rfl
  | cons b rest ih => intro s k; rw [copyAt, ih, List.length_set]

theorem orAt_length (s : List Nat) (j v : Nat) : (orAt s j v).length = s.length := by
  rw [orAt, List.length_set]

theorem orShiftRight_length (p : List Nat) :
    ∀ s j offset, (orShiftRight s j offset p).length = s.length := by
  induction p with
  | nil => intro s j offset; rfl
  | cons b rest ih => intro s j offset; rw [orShiftRight, ih, orAt_length]

theorem orShiftLeft_length (p : List Nat) :
    ∀ s j offset, (orShiftLeft s j offset p).length = s.length := by
  induction p with
  | nil => intro s j offset; rfl
  | cons b rest ih => intro s j offset; rw [orShiftLeft, ih, orAt_length]

theorem appendToSlice_eq_error (s : List Nat) (e : Nat) (p : List Nat)
    (h : s.length < (if 0 < e % 8 then 1 else 0) + e / 8 + p.length) :
    appendToSlice s e p = .error .tooShortToMarshal := by
  simp only [appendToSlice]
  rw [if_pos h]

theorem appendToSlice_isOk (s : List Nat) (e : Nat) (p : List Nat)
    (h : ¬ s.length < (if 0 < e % 8 then 1 else 0) + e / 8 + p.length) :
    ∃ s2, appendToSlice s e p = .ok s2 ∧ s2.length = s.length := by
  simp only [appendToSlice]
  rw [if_neg h]
  by_cases ho : e % 8 = 0
  · rw [if_pos ho]
    exact ⟨_, rfl, copyAt_length _ _ _⟩
  · rw [if_neg ho]
    exact ⟨_, rfl, by rw [orShiftLeft_length, orShiftRight_length]⟩

theorem appendToSlice_ok_length {s s2 : List Nat} {e : Nat} {p : List Nat}
    (h : appendToSlice s e p = .ok s2) : s2.length = s.length := by
  by_cases hc : s.length < (if 0 < e % 8 then 1 else 0) + e / 8 + p.length
  · rw [appendToSlice_eq_error s e p hc] at h
    exact absurd h (by simp)
  · obtain ⟨s3, h3, hl⟩ := appendToSlice_isOk s e p hc
    rw [h3] at h
    obtain rfl : s3 = s2 := by injection h
    exact hl

theorem agreeBelow_set {n : Nat} {s t : List Nat} (h : agreeBelow n s t) (j v : Nat) :
    agreeBelow n (s.set j v) (t.set j v) := by
  obtain ⟨hl, hv⟩ := h
  refine ⟨by rw [List.length_set, List.length_set, hl], fun i hi => ?_⟩
  rw [getD_set, getD_set, hl]
  by_cases hc : j = i ∧ j < t.length
  · rw [if_pos hc, if_pos hc]
  · rw [if_neg hc, if_neg hc]
    exact hv i hi

theorem agreeBelow_orAt {n : Nat} {s t : List Nat} (h : agreeBelow n s t) (j v : Nat) :
    agreeBelow n (orAt s j v) (orAt t j v) := by
  by_cases hj : j < n
  · have hval : s.getD j 0 = t.getD j 0 := h.2 j hj
    rw [orAt, orAt, hval]
    exact agreeBelow_set h j _
  · obtain ⟨hl, hv⟩ := h
    refine ⟨by rw [orAt_length, orAt_length, hl], fun i hi => ?_⟩
    rw [orAt, orAt, getD_set, getD_set, hl]
    rw [if_neg (by omega), if_neg (by omega)]
    exact hv i hi

theorem agreeBelow_copyAt {n : Nat} (p : List Nat) :
    ∀ {s t : List Nat}, agreeBelow n s t → ∀ k, agreeBelow n (copyAt s k p) (copyAt t k p) := by
  induction p with
  | nil => intro s t h k; exact h
  | cons b rest ih =>
    intro s t h k
    rw [copyAt, copyAt]
    exact ih (agreeBelow_set h k b) (k + 1)

theorem agreeBelow_orShiftRight {n : Nat} (p : List Nat) :
    ∀ {s t : List Nat}, agreeBelow n s t → ∀ j offset,
      agreeBelow n (orShiftRight s j offset p) (orShiftRight t j offset p) := by
  induction p with
  | nil => intro s t h j offset; exact h
  | cons b rest ih =>
    intro s t h j offset
    rw [orShiftRight, orShiftRight]
    exact ih (agreeBelow_orAt h j _) (j + 1) offset

theorem agreeBelow_orShiftLeft {n : Nat} (p : List Nat) :
    ∀ {s t : List Nat}, agreeBelow n s t → ∀ j offset,
      agreeBelow n (orShiftLeft s j offset p) (orShiftLeft t j offset p) := by
  induction p with
  | nil => intro s t h j offset; exact h
  | cons b rest ih =>
    intro s t h j offset
    rw [orShiftLeft, orShiftLeft]
    exact ih (agreeBelow_orAt h j _) (j + 1) offset

theorem agreeBelow_appendToSlice {n : Nat} {s t : List Nat} (h : agreeBelow n s t)
    (e : Nat) (p : List Nat) :
    (appendToSlice s e p = .error .tooShortToMarshal
        ∧ appendToSlice t e p = .error .tooShortToMarshal)
    ∨ (∃ s2 t2, appendToSlice s e p = .ok s2 ∧ appendToSlice t e p = .ok t2
        ∧ agreeBelow n s2 t2) := by
  by_cases hc : s.length < (if 0 < e % 8 then 1 else 0) + e / 8 + p.length
  · exact Or.inl ⟨appendToSlice_eq_error s e p hc,
      appendToSlice_eq_error t e p (by rw [← h.1]; exact hc)⟩
  · right
    have hct : ¬ t.length < (if 0 < e % 8 then 1 else 0) + e / 8 + p.length := by
      rw [← h.1]; exact hc
    simp only [appendToSlice]
    rw [if_neg hc, if_neg hct]
    by_cases ho : e % 8 = 0
    · rw [if_pos ho, if_pos ho]
      exact ⟨_, _, rfl, rfl, agreeBelow_copyAt p h _⟩
    · rw [if_neg ho, if_neg ho]
      exact ⟨_, _, rfl, rfl,
        agreeBelow_orShiftLeft p (agreeBelow_orShiftRight p h _ _) _ _⟩

theorem copyAt_getD_lt (p : List Nat) :
    ∀ s k i, i < k → (copyAt s k p).getD i 0 = s.getD i 0 := by
  induction p with
  | nil => intro s k i _; rfl
  | cons b rest ih =>
    intro s k i hik
    rw [copyAt, ih _ _ _ (by omega), getD_set, if_neg (by omega)]

theorem copyAt_getD_in (p : List Nat) :
    ∀ s k i, k ≤ i → i < k + p.length → i < s.length →
      (copyAt s k p).getD i 0 = p.getD (i - k) 0 := by
  induction p with
  | nil => intro s k i h1 h2 _; simp only [List.length_nil] at h2; omega
  | cons b rest ih =>
    intro s k i h1 h2 h3
    simp only [List.length_cons] at h2
    rw [copyAt]
    by_cases hik : i = k
    · subst hik
      rw [copyAt_getD_lt rest _ _ _ (by omega), getD_set, if_pos ⟨rfl, h3⟩]
      simp
    · have hr := ih (s.set k b) (k + 1) i (by omega)
        (by omega) (by rw [List.length_set]; exact h3)
      rw [hr]
      have : i - k = (i - (k + 1)) + 1 := by omega
      rw [this, List.getD_cons_succ]

theorem take_eq_of_agree {n : Nat} {s t : List Nat} (h : agreeBelow n s t) :
    s.take n = t.take n := by
  obtain ⟨hl, hv⟩ := h
  apply List.ext_getElem?
  intro i
  by_cases hin : i < n
  · rw [List.getElem?_take, List.getElem?_take, if_pos hin, if_pos hin]
    by_cases his : i < s.length
    · have hit : i < t.length := by omega
      rw [List.getElem?_eq_getElem his, List.getElem?_eq_getElem hit]
      have := hv i hin
      rw [List.getD_eq_getElem s 0 his, List.getD_eq_getElem t 0 hit] at this
      rw [this]
    · rw [List.getElem?_eq_none (by omega), List.getElem?_eq_none (by omega)]
  · rw [List.getElem?_eq_none (by rw [List.length_take]; omega),
      List.getElem?_eq_none (by rw [List.length_take]; omega)]

theorem fromIPv6_isOk (ipv6 : List Nat) (startBit length : Nat)
    (h1 : ¬ ipv6.length < length) (h2 : ¬ 8 * ipv6.length < startBit + length * 8) :
    ∃ r, fromIPv6 ipv6 startBit length = .ok r := by
  simp only [fromIPv6]
  rw [if_neg h1, if_neg h2]
  by_cases ho : startBit % 8 = 0
  · rw [if_pos ho]
    exact ⟨_, rfl⟩
  · rw [if_neg ho]
    exact ⟨_, rfl⟩

theorem argsMarshal_isOk (a : ArgsMobSession) :
    ∃ ab, argsMarshal a = .ok ab ∧ ab.length = 5 := by
  simp only [argsMarshal, argsMarshalTo, List.length_replicate]
  rw [if_neg (by omega)]
  exact ⟨_, rfl, by
    rw [copyAt_length, orAt_length, orAt_length, orAt_length, List.length_replicate]⟩

/-- C1: the claimed marshal/parse round-trip fails on the code.  At the
package example value itself (prefix 3fff::/20, IPv4 203.0.113.1,
Args.Mob.Session with pduSessionID 1), parsing the marshalled destination
address back with the same prefix length returns IPv4 203.0.113.0 and
pduSessionID 0: the extraction of a field whose bit offset is not a multiple
of 8 loses the low bits of its last byte.  The same failure shows in the
basic and vendor-extension source-address round-trips (UDP port 12345 comes
back as 12336). -/
theorem claim_C1 :
    (dstMarshal dstExample).bind
        (fun l => (parseMGTP4IPv6Dst l 20).map (fun y => (y.ipv4, y.argsMobSession.pduSessionID)))
      = .ok ((203, 0, 113, 0), 0)
    ∧ dstExample.ipv4 = (203, 0, 113, 1)
    ∧ dstExample.argsMobSession.pduSessionID = 1
    ∧ (srcMarshal srcExample).bind (fun l => (parseMGTP4IPv6Src l 20).map (fun y => y.ipv4))
      = .ok (203, 0, 113, 0)
    ∧ (srcMarshal srcExample).bind
        (fun l => (parseMGTP4IPv6SrcNextMN l).map (fun y => (y.ipv4, y.udp)))
      = .ok ((203, 0, 113, 0), 12336)
    ∧ srcExample.ipv4 = (203, 0, 113, 1)
    ∧ srcExample.udp = 12345 :=
  ⟨rfl, rfl, rfl, rfl, rfl, rfl, rfl⟩

/-- C2: false on the code.  With startBit 4 and lengthBytes 1 on a buffer
whose byte 1 is 255, the last (here only) output byte of fromIPv6 is 0,
while the claimed value, which ORs in byte startByte+1 shifted right by
8-bitOffset, is 15: the second Go loop stops one byte early, so the last
output byte never receives the right-hand contribution. -/
theorem claim_C2 :
    fromIPv6 bugBuf 4 1 = .ok [0]
    ∧ claimedWindowByte bugBuf 4 0 = 15
    ∧ fromIPv6 bugBuf 4 1 ≠ .ok [claimedWindowByte bugBuf 4 0] :=
  ⟨rfl, rfl, fun h => by
    rw [(rfl : claimedWindowByte bugBuf 4 0 = 15), (rfl : fromIPv6 bugBuf 4 1 = .ok [0])] at h
    injection h with h1
    exact absurd (List.head_eq_of_cons_eq h1) (by decide)⟩

/-- C3: false on the code.  Extracting 1 byte at bit 4 from bugBuf yields 0
(the low nibble is dropped), so appending it back at bit 4 into a zeroed
16-byte buffer leaves the buffer all zero, while bits 8..11 of bugBuf are
0xF: the window is not reproduced. -/
theorem claim_C3 :
    fromIPv6 bugBuf 4 1 = .ok [0]
    ∧ appendToSlice (List.replicate 16 0) 4 [0] = .ok (List.replicate 16 0)
    ∧ bugBuf.getD 1 0 >>> 4 = 15
    ∧ (List.replicate 16 0).getD 1 0 >>> 4 = 0 :=
  ⟨rfl, rfl, rfl, rfl⟩

/-- C4: false on the code.  For a 16-byte address and prefixLength 64 (which
satisfies 64+32 <= 128 < 64+32+40), the 5-byte window extraction inside
ParseMGTP4IPv6Dst fails with the out-of-range error, but that error is
shadowed by the next short-variable-declaration and the parse returns the
too-short-to-parse error produced by ParseArgsMobSession on the nil slice. -/
theorem claim_C4 :
    parseMGTP4IPv6Dst (List.replicate 16 0) 64 = .error .tooShortToParse
    ∧ fromIPv6 (List.replicate 16 0) (64 + 8 * 4) 5 = .error .outOfRange :=
  ⟨rfl, rfl⟩

/-- C5: the two concrete Args.Mob.Session marshal examples hold: qfi 0,
flags false, session id 1 marshals to 00 00 00 00 01, and qfi 63, flags
true, session id 0xFFFFFFFF marshals to FF FF FF FF FF. -/
theorem claim_C5 :
    argsMarshal (newArgsMobSession 0 false false 1) = .ok [0x00, 0x00, 0x00, 0x00, 0x01]
    ∧ argsMarshal (newArgsMobSession 63 true true 0xFFFFFFFF)
      = .ok [0xFF, 0xFF, 0xFF, 0xFF, 0xFF] :=
  ⟨rfl, rfl⟩

/-- C7: the out-of-range half of the claim holds on the code (an address
whose byte 15 decodes to prefix length 80 gives 80+32 <= 128 < 80+32+16+7
and the vendor parser returns the out-of-range error), but the port half is
false: at prefix length 20 with byte 8 equal to 0xF0, the 16-bit window at
bit offset 52 is 0x000F, yet the parser decodes UDP port 0, because the
window extraction drops the low bits of its last byte. -/
theorem claim_C7 :
    parseMGTP4IPv6SrcNextMN c7AddrNoRoom = .error .outOfRange
    ∧ Nat.land 127 (c7AddrNoRoom.getD 15 0) = 80
    ∧ (parseMGTP4IPv6SrcNextMN c7AddrPort).map (fun r => r.udp) = .ok 0
    ∧ be16 (claimedWindowByte c7AddrPort 52 0) (claimedWindowByte c7AddrPort 52 1) = 15 :=
  ⟨rfl, rfl, rfl, rfl⟩

/-- C8 counterexample: the claim quantifies over every successful MarshalTo,
but a /128 prefix marshalled into a 22-byte buffer succeeds (the appends
land beyond byte 15 and the capacity check uses the full buffer length),
and byte 15 then holds byte(128) = 0x80, whose low 7 bits are 0, not the
stored bit-length 128. -/
theorem claim_C8_counterexample :
    (srcMarshalTo srcM128 (List.replicate 22 0)).map (fun o => o.getD 15 0 % 128) = .ok 0
    ∧ srcM128.pfx.bits.toNat = 128
    ∧ (0 : Nat) ≠ 128 :=
  ⟨rfl, rfl, by decide⟩

/-- C6: error taxonomy of the basic source-address parser.  It fails with
the prefix-length error exactly when the prefix length is 0, fails with the
out-of-range error when the length is nonzero but the 4 IPv4 bytes would not
fit, and succeeds otherwise with the UDP port left at 0. -/
theorem claim_C6 (addr : List Nat) (p : Nat) (h : addr.length = 16) :
    (parseMGTP4IPv6Src addr p = .error .prefixLength ↔ p = 0)
    ∧ (p ≠ 0 → 128 < p + 32 → parseMGTP4IPv6Src addr p = .error .outOfRange)
    ∧ (p ≠ 0 → p + 32 ≤ 128 → ∃ v, parseMGTP4IPv6Src addr p = .ok v ∧ v.udp = 0) := by
  constructor
  · constructor
    · intro he
      by_contra hp
      simp only [parseMGTP4IPv6Src] at he
      rw [if_neg hp] at he
      by_cases hr : 8 * 16 < p + 8 * 4
      · rw [if_pos hr] at he
        simp at he
      · rw [if_neg hr] at he
        obtain ⟨r, hrr⟩ := fromIPv6_isOk addr p 4 (by omega) (by omega)
        rw [hrr] at he
        simp at he
    · intro hp
      subst hp
      rfl
  constructor
  · intro hp hr
    simp only [parseMGTP4IPv6Src]
    rw [if_neg hp, if_pos (by omega : 8 * 16 < p + 8 * 4)]
  · intro hp hr
    simp only [parseMGTP4IPv6Src]
    rw [if_neg hp, if_neg (by omega : ¬ 8 * 16 < p + 8 * 4)]
    obtain ⟨r, hrr⟩ := fromIPv6_isOk addr p 4 (by omega) (by omega)
    rw [hrr]
    exact ⟨_, rfl, rfl⟩

theorem claim_C6_witness :
    parseMGTP4IPv6Src (List.replicate 16 0) 0 = .error .prefixLength
    ∧ parseMGTP4IPv6Src (List.replicate 16 0) 100 = .error .outOfRange :=
  ⟨(claim_C6 (List.replicate 16 0) 0 (by decide)).1.mpr rfl,
   (claim_C6 (List.replicate 16 0) 100 (by decide)).2.1 (by decide) (by decide)⟩

/-- C8 (amended): whenever the source-address marshal succeeds and the
stored prefix bit count is at most 127, the low 7 bits of output byte 15
equal that bit count; byte 15 is written last as a direct whole-byte
assignment, so this holds regardless of the buffer contents or the earlier
appends.  (The restriction to bit counts below 128 is forced: a /128 prefix
can marshal successfully into a buffer longer than 16 bytes, see the
counterexample.) -/
theorem claim_C8 (m : MGTP4IPv6Src) (b out : List Nat)
    (hok : srcMarshalTo m b = .ok out) (hbits : m.pfx.bits ≤ 127) :
    out.getD 15 0 % 128 = m.pfx.bits.toNat := by
  simp only [srcMarshalTo] at hok
  by_cases hb : b.length < 16
  · rw [if_pos hb] at hok
    simp at hok
  · rw [if_neg hb] at hok
    by_cases hm : m.pfx.bits = -1
    · rw [if_pos hm] at hok
      simp at hok
    · rw [if_neg hm] at hok
      cases h2 : appendToSlice (copyAt b 0 m.pfx.addr) m.pfx.bits.toNat (ipv4Slice m.ipv4) with
      | error e =>
        rw [h2] at hok
        simp at hok
      | ok b2 =>
        simp only [h2] at hok
        cases h3 : appendToSlice b2 (m.pfx.bits.toNat + 8 * 4)
            [m.udp >>> 8 % 256, m.udp % 256] with
        | error e =>
          rw [h3] at hok
          simp at hok
        | ok b3 =>
          simp only [h3, Except.ok.injEq] at hok
          subst hok
          have hlen3 : b3.length = b.length := by
            rw [appendToSlice_ok_length h3, appendToSlice_ok_length h2, copyAt_length]
          rw [getD_set, if_pos ⟨rfl, by omega⟩]
          omega

theorem claim_C8_witness :
    srcMarshalTo srcExample (List.replicate 16 0) = .ok srcOut16
    ∧ srcOut16.getD 15 0 % 128 = srcExample.pfx.bits.toNat :=
  ⟨rfl, claim_C8 srcExample (List.replicate 16 0) srcOut16 rfl (by decide)⟩

/-- C9: a destination value whose prefix bit count p satisfies
p + 32 + 40 > 128 (with p at most 128) cannot be marshalled into the fresh
16-byte buffer of Marshal, and the error is the too-short-to-serialize one
from the bit-window append capacity check, not out-of-range or
prefix-length. -/
theorem claim_C9 (m : MGTP4IPv6Dst) (h1 : 128 < m.pfx.bits + 72) (h2 : m.pfx.bits ≤ 128) :
    dstMarshal m = .error .tooShortToMarshal := by
  have hn1 : 57 ≤ m.pfx.bits.toNat := by omega
  have hn2 : m.pfx.bits.toNat ≤ 128 := by omega
  simp only [dstMarshal, dstMarshalTo, List.length_replicate]
  rw [if_neg (by omega : ¬ 16 < 16), if_neg (by omega : ¬ m.pfx.bits = -1)]
  have hb1 : (copyAt (List.replicate 16 0) 0 m.pfx.addr).length = 16 := by
    rw [copyAt_length, List.length_replicate]
  by_cases hc1 : (copyAt (List.replicate 16 0) 0 m.pfx.addr).length
      < (if 0 < m.pfx.bits.toNat % 8 then 1 else 0) + m.pfx.bits.toNat / 8
        + (ipv4Slice m.ipv4).length
  · rw [appendToSlice_eq_error _ _ _ hc1]
  · obtain ⟨s2, hs2, hs2len⟩ := appendToSlice_isOk _ _ _ hc1
    obtain ⟨ab, hab, hablen⟩ := argsMarshal_isOk m.argsMobSession
    simp only [hs2, hab]
    have h4 : (ipv4Slice m.ipv4).length = 4 := rfl
    rw [hb1, h4] at hc1
    have hc2 : s2.length < (if 0 < (m.pfx.bits.toNat + 8 * 4) % 8 then 1 else 0)
        + (m.pfx.bits.toNat + 8 * 4) / 8 + ab.length := by
      rw [hs2len, hb1, hablen]
      by_cases ho : 0 < m.pfx.bits.toNat % 8
      · rw [if_pos ho] at hc1
        rw [if_pos (by omega : 0 < (m.pfx.bits.toNat + 8 * 4) % 8)]
        omega
      · rw [if_neg ho] at hc1
        rw [if_neg (by omega : ¬ 0 < (m.pfx.bits.toNat + 8 * 4) % 8)]
        omega
    rw [appendToSlice_eq_error _ _ _ hc2]

theorem claim_C9_witness : dstMarshal dstEx57 = .error .tooShortToMarshal :=
  claim_C9 dstEx57 (by decide) (by decide)

theorem copyAt_agree_init {b1 b2 : List Nat} (addr : List Nat)
    (haddr : addr.length = 16) (hlen : b1.length = b2.length) (hge : 16 ≤ b1.length) :
    agreeBelow 16 (copyAt b1 0 addr) (copyAt b2 0 addr) := by
  refine ⟨by rw [copyAt_length, copyAt_length, hlen], fun i hi => ?_⟩
  rw [copyAt_getD_in addr b1 0 i (by omega) (by omega) (by omega),
      copyAt_getD_in addr b2 0 i (by omega) (by omega) (by omega)]

/-- C10: for both composite marshals, the first 16 bytes of a successful
output depend only on the receiver value, not on the prior buffer contents:
the prefix copy first overwrites all 16 bytes, and every later write is a
deterministic function of those bytes and the receiver fields. -/
theorem claim_C10 :
    (∀ (m : MGTP4IPv6Src) (b1 b2 o1 o2 : List Nat),
      m.pfx.addr.length = 16 → b1.length = b2.length →
      srcMarshalTo m b1 = .ok o1 → srcMarshalTo m b2 = .ok o2 →
      o1.take 16 = o2.take 16)
    ∧ (∀ (m : MGTP4IPv6Dst) (b1 b2 o1 o2 : List Nat),
      m.pfx.addr.length = 16 → b1.length = b2.length →
      dstMarshalTo m b1 = .ok o1 → dstMarshalTo m b2 = .ok o2 →
      o1.take 16 = o2.take 16) := by
  constructor
  · intro m b1 b2 o1 o2 haddr hlen h1 h2
    simp only [srcMarshalTo] at h1 h2
    by_cases hb : b1.length < 16
    · rw [if_pos hb] at h1
      simp at h1
    · rw [if_neg hb] at h1
      rw [if_neg (by omega : ¬ b2.length < 16)] at h2
      by_cases hm : m.pfx.bits = -1
      · rw [if_pos hm] at h1
        simp at h1
      · rw [if_neg hm] at h1
        rw [if_neg hm] at h2
        have hA := copyAt_agree_init m.pfx.addr haddr hlen (by omega)
        rcases agreeBelow_appendToSlice hA m.pfx.bits.toNat (ipv4Slice m.ipv4) with
          ⟨he1, he2⟩ | ⟨s2, t2, hs2, ht2, hA2⟩
        · rw [he1] at h1
          simp at h1
        · simp only [hs2] at h1
          simp only [ht2] at h2
          rcases agreeBelow_appendToSlice hA2 (m.pfx.bits.toNat + 8 * 4)
              [m.udp >>> 8 % 256, m.udp % 256] with
            ⟨he3, he4⟩ | ⟨s3, t3, hs3, ht3, hA3⟩
          · rw [he3] at h1
            simp at h1
          · simp only [hs3, Except.ok.injEq] at h1
            simp only [ht3, Except.ok.injEq] at h2
            subst h1
            subst h2
            exact take_eq_of_agree (agreeBelow_set hA3 15 _)
  · intro m b1 b2 o1 o2 haddr hlen h1 h2
    simp only [dstMarshalTo] at h1 h2
    by_cases hb : b1.length < 16
    · rw [if_pos hb] at h1
      simp at h1
    · rw [if_neg hb] at h1
      rw [if_neg (by omega : ¬ b2.length < 16)] at h2
      by_cases hm : m.pfx.bits = -1
      · rw [if_pos hm] at h1
        simp at h1
      · rw [if_neg hm] at h1
        rw [if_neg hm] at h2
        have hA := copyAt_agree_init m.pfx.addr haddr hlen (by omega)
        rcases agreeBelow_appendToSlice hA m.pfx.bits.toNat (ipv4Slice m.ipv4) with
          ⟨he1, he2⟩ | ⟨s2, t2, hs2, ht2, hA2⟩
        · rw [he1] at h1
          simp at h1
        · obtain ⟨ab, hab, hablen⟩ := argsMarshal_isOk m.argsMobSession
          simp only [hs2, hab] at h1
          simp only [ht2, hab] at h2
          rcases agreeBelow_appendToSlice hA2 (m.pfx.bits.toNat + 8 * 4) ab with
            ⟨he3, he4⟩ | ⟨s3, t3, hs3, ht3, hA3⟩
          · rw [he3] at h1
            simp at h1
          · simp only [hs3, Except.ok.injEq] at h1
            simp only [ht3, Except.ok.injEq] at h2
            subst h1
            subst h2
            exact take_eq_of_agree hA3

theorem claim_C10_witness :
    srcMarshalTo srcExample (List.replicate 17 0) = .ok (srcOut16 ++ [0])
    ∧ srcMarshalTo srcExample (List.replicate 17 255) = .ok (srcOut16 ++ [255])
    ∧ (srcOut16 ++ [0]).take 16 = (srcOut16 ++ [255]).take 16 :=
  ⟨rfl, rfl, claim_C10.1 srcExample (List.replicate 17 0) (List.replicate 17 255)
    (srcOut16 ++ [0]) (srcOut16 ++ [255]) rfl rfl rfl rfl⟩

end RFC9433
